import Mathlib

/-!
Verification development for the blokus_ai repository (DQN/Rainbow agent).

The definitions below are shallow embeddings of the Python source:
`src/agent.py` (Agent.get_distributional_loss, Agent.get_target,
Agent.get_target_double, Agent.train epsilon update, double-DQN target sync)
and `src/rainbow/models.py` (LegalSoftmax.forward, DuelingNetwork.forward,
NoisyLayer.update_noise, DistributionalNetwork.action_distr).
Exact rationals stand in for float tensors where the code is algebraic;
real numbers with Real.exp / Real.sqrt are used where the code applies
transcendental functions (softmax, Gaussian-noise transform, epsilon decay).
-/

/-- Parameters of the distributional (categorical / C51) value head, from the
`distr_params` dictionary in `Agent.__init__`: number of atoms and the value
support bounds. -/
structure DistrParams where
  numBins : ℕ
  vMin : ℚ
  vMax : ℚ

/-- Grid spacing `v_step = (v_max - v_min) / (num_bins - 1)` computed in
`Agent.get_distributional_loss`. -/
def vStep (p : DistrParams) : ℚ :=
  (p.vMax - p.vMin) / ((p.numBins : ℚ) - 1)

/-- The fixed atom grid `v_range = torch.linspace(v_min, v_max, num_bins)`
built in `Agent.__init__`: atom `i` sits at `v_min + i * v_step`. -/
def vRange (p : DistrParams) (i : Fin p.numBins) : ℚ :=
  p.vMin + (i : ℚ) * vStep p

/-- `torch.Tensor.clamp(lo, hi)` on a scalar. -/
def clampQ (lo hi x : ℚ) : ℚ :=
  min (max x lo) hi

/-- The target distribution support `d_target` built in
`Agent.get_distributional_loss` (src/agent.py lines 116-119): the code first
sets `d_target = reward.clamp(v_min, v_max)` and then, under `if done:`,
overwrites it with `(gamma * v_range + reward).clamp(v_min, v_max)`.  So the
shifted/scaled branch runs exactly when `done` is true, and the bare clamped
reward is used when `done` is false. -/
def dTarget (p : DistrParams) (gamma reward : ℚ) (done : Bool)
    (i : Fin p.numBins) : ℚ :=
  if done then clampQ p.vMin p.vMax (gamma * vRange p i + reward)
  else clampQ p.vMin p.vMax reward

/-- Grid coordinate `delta = (d_target - v_min) / v_step` of each target atom
(src/agent.py line 121). -/
def deltaOf (p : DistrParams) (gamma reward : ℚ) (done : Bool)
    (i : Fin p.numBins) : ℚ :=
  (dTarget p gamma reward done i - p.vMin) / vStep p

/-- The projection of the target distribution onto the atom grid performed by
the two `index_add_` calls in `Agent.get_distributional_loss` (src/agent.py
lines 130-136), restricted to one batch row (the `offset` tensor only
flattens rows): grid atom `k` receives, from every target atom `j`, mass
`mass j * (ceil (delta j) - delta j)` when `floor (delta j) = k` and mass
`mass j * (delta j - floor (delta j))` when `ceil (delta j) = k`. -/
def distrProjection (p : DistrParams) (delta mass : Fin p.numBins → ℚ)
    (k : Fin p.numBins) : ℚ :=
  (∑ j, if Int.floor (delta j) = (k : ℤ) then
      mass j * ((Int.ceil (delta j) : ℚ) - delta j) else 0)
  + ∑ j, if Int.ceil (delta j) = (k : ℤ) then
      mass j * (delta j - (Int.floor (delta j) : ℚ)) else 0

/-- C1: the claim states that `get_distributional_loss` builds the target
distribution from the next-state branch (`reward + gamma * support`, clamped)
exactly when `done` is false, and from the clamped reward alone when the
transition is terminal.  The code has the condition inverted: with 2 atoms on
`[0, 1]`, `gamma = 1/2`, `reward = 0`, the TERMINAL transition gets the
shifted target (`1/2` at atom 1) while the NON-terminal transition gets the
bare clamped reward (`0` at atom 1). -/
theorem C1_distributional_branch_inverted :
    dTarget ⟨2, 0, 1⟩ (1/2) 0 true ⟨1, by decide⟩ = 1/2 ∧
    dTarget ⟨2, 0, 1⟩ (1/2) 0 false ⟨1, by decide⟩ = 0 := by
  constructor <;> norm_num [dTarget, clampQ, vRange, vStep]

/-- C2: the claim states that a target atom whose grid coordinate `delta` is
an exact integer has 100% of its mass assigned to that grid atom.  In the
code both interpolation weights `ceil delta - delta` and `delta - floor delta`
vanish when `delta` is an integer, so the atom's whole mass is dropped: with
2 atoms on `[0, 1]`, `gamma = 1`, `reward = 0`, `done = true`, atom 0 has
`delta = 0` (an exact integer) and carries all the mass, yet every grid atom
receives projected mass 0. -/
theorem C2_integer_delta_mass_dropped :
    deltaOf ⟨2, 0, 1⟩ 1 0 true 0 = 0 ∧
    (∀ k, distrProjection ⟨2, 0, 1⟩ (deltaOf ⟨2, 0, 1⟩ 1 0 true)
      (fun j => if j = 0 then 1 else 0) k = 0) ∧
    (∑ j, (fun j : Fin (2:ℕ) => if j = 0 then (1:ℚ) else 0) j) = 1 := by
  have hd0 : deltaOf ⟨2, 0, 1⟩ 1 0 true 0 = 0 := by
    norm_num [deltaOf, dTarget, clampQ, vRange, vStep]
  have hd1 : deltaOf ⟨2, 0, 1⟩ 1 0 true 1 = 1 := by
    norm_num [deltaOf, dTarget, clampQ, vRange, vStep]
  refine ⟨hd0, ?_, by simp [Fin.sum_univ_two]⟩
  intro k
  fin_cases k <;>
    simp [distrProjection, Fin.sum_univ_two, hd0, hd1]

/-- The index returned by `torch.argmax` on the action-value vector, as used
by `self.model(next_state, self.env).argmax()` in `Agent.get_target_double`
(src/agent.py line 140): an index at which the vector attains its maximum. -/
def argmaxFin {n : ℕ} (f : Fin (n + 1) → ℚ) : Fin (n + 1) :=
  ((List.finRange (n + 1)).argmax f).getD 0

/-- The value returned by `torch.Tensor.max()` on the action-value vector, as
used by `self.model(next_state, self.env).max()` in `Agent.get_target`
(src/agent.py line 151): the maximum entry. -/
def maxFin {n : ℕ} (f : Fin (n + 1) → ℚ) : ℚ :=
  Finset.univ.sup' Finset.univ_nonempty f

theorem le_argmaxFin {n : ℕ} (f : Fin (n + 1) → ℚ) (a : Fin (n + 1)) :
    f a ≤ f (argmaxFin f) := by
  obtain ⟨m, hm⟩ : ∃ m, (List.finRange (n + 1)).argmax f = some m := by
    cases h : (List.finRange (n + 1)).argmax f with
    | none =>
        exfalso
        have : List.finRange (n + 1) = [] := List.argmax_eq_none.mp h
        have h0 : (0 : Fin (n + 1)) ∈ List.finRange (n + 1) := List.mem_finRange 0
        simp [this] at h0
    | some m => exact ⟨m, rfl⟩
  have hle : f a ≤ f m := List.le_of_mem_argmax (List.mem_finRange a) hm
  simpa [argmaxFin, hm] using hle

/-- `Agent.get_target_double` (src/agent.py lines 139-141): select the action
by the ONLINE network's argmax on the next state, evaluate it with the TARGET
network. -/
def getTargetDouble {S : Type} {n : ℕ} (model modelTarget : S → Fin (n + 1) → ℚ)
    (nextState : S) : ℚ :=
  modelTarget nextState (argmaxFin (model nextState))

/-- `Agent.get_target` (src/agent.py lines 143-153): `target = reward`, and
when not `done` it is overwritten with `next_state_max_Q * gamma + reward`,
where `next_state_max_Q` is `get_target_double` when double-DQN is enabled and
the online network's max otherwise. -/
def getTarget {S : Type} {n : ℕ} (model modelTarget : S → Fin (n + 1) → ℚ)
    (isDouble : Bool) (gamma reward : ℚ) (done : Bool) (nextState : S) : ℚ :=
  if done then reward
  else
    (if isDouble then getTargetDouble model modelTarget nextState
     else maxFin (model nextState)) * gamma + reward

/-- C3: the non-distributional target equals `reward` when `done`; otherwise
it is `reward + gamma * max` over next-state action values, where without
double-DQN the online network supplies both the maximum (attained, and an
upper bound of every action value), and with double-DQN the action is the
online network's argmax (a maximizer of the online values) evaluated by the
target network. -/
theorem C3_target_rule {S : Type} {n : ℕ} (model modelTarget : S → Fin (n + 1) → ℚ)
    (isDouble : Bool) (gamma reward : ℚ) (ns : S) :
    getTarget model modelTarget isDouble gamma reward true ns = reward ∧
    (getTarget model modelTarget false gamma reward false ns
        = reward + gamma * maxFin (model ns) ∧
      (∀ a, model ns a ≤ maxFin (model ns)) ∧
      (∃ a, maxFin (model ns) = model ns a)) ∧
    (getTarget model modelTarget true gamma reward false ns
        = reward + gamma * modelTarget ns (argmaxFin (model ns)) ∧
      ∀ a, model ns a ≤ model ns (argmaxFin (model ns))) := by
  refine ⟨by simp [getTarget], ⟨by simp [getTarget]; ring, ?_, ?_⟩, ⟨?_, ?_⟩⟩
  · intro a
    simpa [maxFin] using Finset.le_sup' (model ns) (Finset.mem_univ a)
  · obtain ⟨b, _, hb⟩ :=
      Finset.exists_mem_eq_sup' (Finset.univ_nonempty) (model ns)
    exact ⟨b, hb⟩
  · simp [getTarget, getTargetDouble]; ring
  · intro a
    exact le_argmaxFin (model ns) a

/-- The combination step of `DuelingNetwork.forward`
(src/rainbow/models.py line 88): `advantage + value - advantage.mean()`,
restricted to one row, where `advantage` is the masked advantage head output
and `value` the scalar value head output. -/
def duelingCombine {n : ℕ} (advantage : Fin (n + 1) → ℚ) (value : ℚ)
    (a : Fin (n + 1)) : ℚ :=
  advantage a + value - (∑ b, advantage b) / (n + 1)

/-- C8: for a fixed state, an action is an arg-max of the dueling combination
`advantage + value - mean advantage` over the legal actions exactly when it is
an arg-max of `value + advantage` before the mean subtraction: subtracting the
scalar mean shifts every action's score equally and preserves the ranking. -/
theorem C8_dueling_argmax {n : ℕ} (advantage : Fin (n + 1) → ℚ) (value : ℚ)
    (legal : Finset (Fin (n + 1))) (a : Fin (n + 1)) (ha : a ∈ legal) :
    (∀ b ∈ legal, duelingCombine advantage value b ≤ duelingCombine advantage value a)
      ↔ (∀ b ∈ legal, value + advantage b ≤ value + advantage a) := by
  have _ := ha
  unfold duelingCombine
  constructor <;> intro h b hb <;> have hh := h b hb <;> linarith

/-- Witness for C8 at a concrete input: with advantages `(1, 2)`, value `5`,
both actions legal and candidate action `1`. -/
theorem C8_dueling_argmax_witness :
    (1 : Fin 2) ∈ ({0, 1} : Finset (Fin 2)) ∧
    ((∀ b ∈ ({0, 1} : Finset (Fin 2)),
        duelingCombine ![1, 2] 5 b ≤ duelingCombine ![1, 2] 5 1)
      ↔ (∀ b ∈ ({0, 1} : Finset (Fin 2)),
        5 + (![1, 2] : Fin 2 → ℚ) b ≤ 5 + (![1, 2] : Fin 2 → ℚ) 1)) :=
  ⟨by decide, C8_dueling_argmax ![1, 2] 5 {0, 1} 1 (by decide)⟩

/-- Events affecting the two parameter sets of a double-DQN agent: a gradient
update, which the optimizer (constructed in `Agent.__init__` line 83 over
`self.model.parameters()` only) applies to the online parameters, and the
explicit sync `self.model_target.load_state_dict(self.model.state_dict())`
performed in `Agent.train` (src/agent.py lines 190-191). -/
inductive TrainEvent (P : Type) where
  | gradStep (g : P → P) : TrainEvent P
  | syncTarget : TrainEvent P

/-- The online and target parameter sets of a double-DQN agent. -/
structure AgentNets (P : Type) where
  online : P
  targetNet : P

/-- Effect of one training event on the parameter sets: a gradient step
rewrites only the online parameters; a sync copies the online parameters into
the target network. -/
def applyEvent {P : Type} : TrainEvent P → AgentNets P → AgentNets P
  | TrainEvent.gradStep g, s => ⟨g s.online, s.targetNet⟩
  | TrainEvent.syncTarget, s => ⟨s.online, s.online⟩

/-- A training run: the sequence of gradient steps and syncs applied in order
by `Agent.train`. -/
def runEvents {P : Type} (events : List (TrainEvent P)) (s : AgentNets P) :
    AgentNets P :=
  events.foldl (fun st e => applyEvent e st) s

/-- The initial double-DQN agent of `Agent.__init__` (src/agent.py lines
79-82): the target network starts as a copy of the online network. -/
def initAgent {P : Type} (p : P) : AgentNets P := ⟨p, p⟩

/-- The value the online parameters had at the most recent sync point of a
run (or the initial copy when no sync occurred), tracked independently of the
target network's own evolution. -/
def onlineAtLastSync {P : Type} : List (TrainEvent P) → P → P → P
  | [], _, snap => snap
  | TrainEvent.gradStep g :: rest, onl, snap => onlineAtLastSync rest (g onl) snap
  | TrainEvent.syncTarget :: rest, onl, _snap => onlineAtLastSync rest onl onl

theorem runEvents_targetNet {P : Type} (events : List (TrainEvent P))
    (onl tgt : P) :
    (runEvents events ⟨onl, tgt⟩).targetNet = onlineAtLastSync events onl tgt := by
  induction events generalizing onl tgt with
  | nil => rfl
  | cons e rest ih =>
      cases e with
      | gradStep g =>
          have hrest := ih (g onl) tgt
          simpa [runEvents, applyEvent, onlineAtLastSync] using hrest
      | syncTarget =>
          have hrest := ih onl onl
          simpa [runEvents, applyEvent, onlineAtLastSync] using hrest

/-- C9: in a double-DQN run, after any sequence of gradient updates and
syncs, the target-network parameters equal the online-network parameters
as of the most recent sync point (the initial copy when none occurred), and a
gradient update never modifies the target-network parameters. -/
theorem C9_target_sync_frame {P : Type} :
    (∀ (events : List (TrainEvent P)) (p : P),
        (runEvents events (initAgent p)).targetNet = onlineAtLastSync events p p) ∧
    (∀ (g : P → P) (s : AgentNets P),
        (applyEvent (TrainEvent.gradStep g) s).targetNet = s.targetNet) := by
  refine ⟨fun events p => ?_, fun g s => rfl⟩
  simpa [initAgent] using runEvents_targetNet events p p

/-- One epsilon update of `Agent.train` (src/agent.py line 185), executed
once per environment step during episode `i`:
`self.eps = self.min_eps + (self.eps - self.min_eps) * np.exp(-self.eps_decay * i)`. -/
noncomputable def stepEps (epsDecay minEps : ℝ) (i : ℕ) (e : ℝ) : ℝ :=
  minEps + (e - minEps) * Real.exp (-(epsDecay * i))

/-- The epsilon value after a portion of the training loop, given the list of
episode indices at which the per-step updates fired, in execution order. -/
noncomputable def epsTrace (epsDecay minEps e0 : ℝ) (t : List ℕ) : ℝ :=
  t.foldl (fun e i => stepEps epsDecay minEps i e) e0

theorem le_stepEps {c m : ℝ} (i : ℕ) {e : ℝ} (he : m ≤ e) :
    m ≤ stepEps c m i e := by
  have hq := Real.exp_pos (-(c * i))
  unfold stepEps
  nlinarith

theorem stepEps_le {c m : ℝ} (hc : 0 ≤ c) (i : ℕ) {e : ℝ} (he : m ≤ e) :
    stepEps c m i e ≤ e := by
  have hq1 : Real.exp (-(c * i)) ≤ 1 := by
    rw [← Real.exp_zero]
    apply Real.exp_le_exp.mpr
    have : (0:ℝ) ≤ c * i := mul_nonneg hc (Nat.cast_nonneg i)
    linarith
  have h1 : (e - m) * Real.exp (-(c * i)) ≤ (e - m) * 1 :=
    mul_le_mul_of_nonneg_left hq1 (by linarith)
  unfold stepEps
  linarith

theorem epsTrace_bounds {c m : ℝ} (hc : 0 ≤ c) (t : List ℕ) :
    ∀ {e : ℝ}, m ≤ e → m ≤ epsTrace c m e t ∧ epsTrace c m e t ≤ e := by
  induction t with
  | nil => intro e he; exact ⟨he, le_refl e⟩
  | cons i rest ih =>
      intro e he
      have h1 : m ≤ stepEps c m i e := le_stepEps i he
      have h2 : stepEps c m i e ≤ e := stepEps_le hc i he
      have h3 := ih h1
      have hfold : epsTrace c m e (i :: rest) = epsTrace c m (stepEps c m i e) rest := rfl
      rw [hfold]
      exact ⟨h3.1, le_trans h3.2 h2⟩

theorem epsTrace_append (c m e : ℝ) (t : List ℕ) (i : ℕ) :
    epsTrace c m e (t ++ [i]) = stepEps c m i (epsTrace c m e t) := by
  simp [epsTrace, List.foldl_append]

/-- C7: with `min_eps ≤` initial `eps` and a positive decay rate, the eps
value maintained by the training loop is monotonically non-increasing across
the whole run (each further step can only lower it), never goes below
`min_eps`, and after any step taken during episode `i` is at most
`min_eps + (eps0 - min_eps) * exp(-eps_decay * i)`, a bound that tends to
`min_eps` as the episode index grows. -/
theorem C7_eps_decay (c m e0 : ℝ) (hc : 0 < c) (he : m ≤ e0) :
    (∀ (t : List ℕ) (i : ℕ), epsTrace c m e0 (t ++ [i]) ≤ epsTrace c m e0 t) ∧
    (∀ t : List ℕ, m ≤ epsTrace c m e0 t) ∧
    (∀ (t : List ℕ) (i : ℕ),
      epsTrace c m e0 (t ++ [i]) ≤ m + (e0 - m) * Real.exp (-(c * i))) ∧
    Filter.Tendsto (fun i : ℕ => m + (e0 - m) * Real.exp (-(c * i)))
      Filter.atTop (nhds m) := by
  have hc' : (0:ℝ) ≤ c := le_of_lt hc
  refine ⟨?_, ?_, ?_, ?_⟩
  · intro t i
    rw [epsTrace_append]
    exact stepEps_le hc' i (epsTrace_bounds hc' t he).1
  · intro t
    exact (epsTrace_bounds hc' t he).1
  · intro t i
    rw [epsTrace_append]
    have hub : epsTrace c m e0 t ≤ e0 := (epsTrace_bounds hc' t he).2
    have hq := Real.exp_pos (-(c * i))
    have h1 : (epsTrace c m e0 t - m) * Real.exp (-(c * i))
        ≤ (e0 - m) * Real.exp (-(c * i)) :=
      mul_le_mul_of_nonneg_right (by linarith) (le_of_lt hq)
    unfold stepEps
    linarith
  · have h1 : Filter.Tendsto (fun i : ℕ => c * i) Filter.atTop Filter.atTop :=
      Filter.Tendsto.const_mul_atTop hc tendsto_natCast_atTop_atTop
    have h2 : Filter.Tendsto (fun i : ℕ => Real.exp (-(c * i)))
        Filter.atTop (nhds 0) :=
      Real.tendsto_exp_neg_atTop_nhds_zero.comp h1
    have h3 := (h2.const_mul (e0 - m)).const_add m
    simpa using h3

/-- Witness for C7 at `eps_decay = 1`, `min_eps = 0`, initial `eps = 1`. -/
theorem C7_eps_decay_witness :
    (0:ℝ) < 1 ∧ (0:ℝ) ≤ 1 ∧
    ((∀ (t : List ℕ) (i : ℕ), epsTrace 1 0 1 (t ++ [i]) ≤ epsTrace 1 0 1 t) ∧
     (∀ t : List ℕ, (0:ℝ) ≤ epsTrace 1 0 1 t) ∧
     (∀ (t : List ℕ) (i : ℕ),
        epsTrace 1 0 1 (t ++ [i]) ≤ 0 + (1 - 0) * Real.exp (-(1 * i))) ∧
     Filter.Tendsto (fun i : ℕ => 0 + (1 - 0) * Real.exp (-(1 * i)))
       Filter.atTop (nhds 0)) :=
  ⟨by norm_num, by norm_num, C7_eps_decay 1 0 1 (by norm_num) (by norm_num)⟩

/-- One action's softmax over the atom dimension, `nn.Softmax(dim=2)(x)` in
`DistributionalNetwork.action_distr` (src/rainbow/models.py line 200),
applied to that action's row `z` of logits. -/
noncomputable def softmaxDistr {n : ℕ} (z : Fin n → ℝ) (i : Fin n) : ℝ :=
  Real.exp (z i) / ∑ j, Real.exp (z j)

/-- The categorical mass vector returned per action by
`DistributionalNetwork.action_distr` (src/rainbow/models.py line 200) and by
`NoisyDuelingDistributionalNetwork.action_distr` (line 253):
`nn.Softmax(dim=2)(x).clamp(1e-5)`, the atom softmax with every entry clamped
from below at `1e-5`. -/
noncomputable def actionDistr {n : ℕ} (z : Fin n → ℝ) (i : Fin n) : ℝ :=
  max (1/100000) (softmaxDistr z i)

theorem sum_softmaxDistr {n : ℕ} (z : Fin n → ℝ) (hn : 0 < n) :
    ∑ i, softmaxDistr z i = 1 := by
  have hne : Nonempty (Fin n) := Fin.pos_iff_nonempty.mp hn
  have hpos : 0 < ∑ j, Real.exp (z j) :=
    Finset.sum_pos (fun j _ => Real.exp_pos (z j)) Finset.univ_nonempty
  unfold softmaxDistr
  rw [← Finset.sum_div]
  exact div_self (ne_of_gt hpos)

/-- C4 counterexample: the claim says the masses returned by `action_distr`
sum to 1 up to floating-point tolerance.  The `clamp(1e-5)` raises every
sub-threshold softmax entry to `1e-5` without renormalising, so in exact
arithmetic the sum exceeds 1 by almost the full clamp amount: with atom
logits `(0, -20)` the two masses sum to more than `1 + 9/1000000`, two
orders of magnitude beyond float32 rounding of a two-term sum. -/
theorem C4_sum_above_one :
    1 + 9/1000000 < ∑ i, actionDistr ![0, -20] i := by
  set q : ℝ := Real.exp (-20) with hqdef
  have hq0 : 0 < q := Real.exp_pos _
  have hq : q < 1/1000000 := by
    have he : (2.7182818283:ℝ) < Real.exp 1 := Real.exp_one_gt_d9
    have hp : (2.7182818283:ℝ)^(20:ℕ) < (Real.exp 1)^(20:ℕ) :=
      pow_lt_pow_left he (by norm_num) (by norm_num)
    have hpow : (Real.exp 1)^(20:ℕ) = Real.exp 20 := by
      rw [← Real.exp_nat_mul]
      norm_num
    have h20 : (1000000:ℝ) < Real.exp 20 := by
      have hb : (1000000:ℝ) < (2.7182818283:ℝ)^(20:ℕ) := by norm_num
      calc (1000000:ℝ) < (2.7182818283:ℝ)^(20:ℕ) := hb
        _ < (Real.exp 1)^(20:ℕ) := hp
        _ = Real.exp 20 := hpow
    have hinv : (Real.exp 20)⁻¹ < (1000000:ℝ)⁻¹ :=
      inv_lt_inv_of_lt (by norm_num) h20
    rw [hqdef, Real.exp_neg]
    simpa using hinv
  have hS : (∑ j, Real.exp ((![0, -20] : Fin 2 → ℝ) j)) = 1 + q := by
    rw [Fin.sum_univ_two]
    simp [Real.exp_zero]
  have hs0 : softmaxDistr ![0, -20] 0 = 1 / (1 + q) := by
    unfold softmaxDistr
    rw [hS]
    simp [Real.exp_zero]
  have hs1 : softmaxDistr ![0, -20] 1 = q / (1 + q) := by
    unfold softmaxDistr
    rw [hS]
    simp
  have h1q : (0:ℝ) < 1 + q := by linarith
  have ha1 : actionDistr ![0, -20] 1 = 1/100000 := by
    unfold actionDistr
    rw [hs1]
    apply max_eq_left
    have hle : q / (1 + q) ≤ q := div_le_self hq0.le (by linarith)
    linarith
  have ha0 : actionDistr ![0, -20] 0 = 1 / (1 + q) := by
    unfold actionDistr
    rw [hs0]
    apply max_eq_right
    rw [le_div_iff h1q]
    nlinarith
  rw [Fin.sum_univ_two, ha0, ha1]
  have hr : (1 / (1 + q)) * (1 + q) = 1 := div_mul_cancel₀ 1 (ne_of_gt h1q)
  have hrle : 1 / (1 + q) ≤ 1 := by
    rw [div_le_one h1q]
    linarith
  have hqr : q * (1 / (1 + q)) ≤ q := by
    nlinarith
  nlinarith

/-- C4 amended: every mass returned by `action_distr` is at least `1e-5` (so
the subsequent logarithm is well-defined), and for each action the masses sum
to at least 1 and at most `1 + num_bins * 1e-5`; the sum is not exactly 1 in
general because the clamp adds mass without renormalising. -/
theorem C4_mass_bounds {n : ℕ} (z : Fin n → ℝ) (hn : 0 < n) :
    (∀ i, 1/100000 ≤ actionDistr z i) ∧
    1 ≤ ∑ i, actionDistr z i ∧
    ∑ i, actionDistr z i ≤ 1 + n * (1/100000) := by
  have hsum := sum_softmaxDistr z hn
  have hpos : ∀ i, 0 ≤ softmaxDistr z i := by
    intro i
    unfold softmaxDistr
    exact div_nonneg (Real.exp_pos _).le
      (Finset.sum_nonneg fun j _ => (Real.exp_pos _).le)
  refine ⟨fun i => le_max_left _ _, ?_, ?_⟩
  · calc (1:ℝ) = ∑ i, softmaxDistr z i := hsum.symm
      _ ≤ ∑ i, actionDistr z i :=
        Finset.sum_le_sum fun i _ => le_max_right _ _
  · have hub : ∀ i, actionDistr z i ≤ softmaxDistr z i + 1/100000 := by
      intro i
      unfold actionDistr
      apply max_le
      · linarith [hpos i]
      · norm_num
    calc ∑ i, actionDistr z i ≤ ∑ i, (softmaxDistr z i + 1/100000) :=
          Finset.sum_le_sum fun i _ => hub i
      _ = 1 + n * (1/100000) := by
          rw [Finset.sum_add_distrib, hsum, Finset.sum_const, Finset.card_univ,
            Fintype.card_fin, nsmul_eq_mul]

/-- Witness for C4 amended at one action, one atom, logit `0`. -/
theorem C4_mass_bounds_witness :
    0 < 1 ∧
    ((∀ i : Fin 1, 1/100000 ≤ actionDistr (fun _ => (0:ℝ)) i) ∧
     1 ≤ ∑ i : Fin 1, actionDistr (fun _ => (0:ℝ)) i ∧
     ∑ i : Fin 1, actionDistr (fun _ => (0:ℝ)) i ≤ 1 + (1:ℕ) * (1/100000)) :=
  ⟨by norm_num, C4_mass_bounds (fun _ => (0:ℝ)) (by norm_num)⟩

open Classical in
/-- The masking step of `LegalSoftmax.forward` (src/rainbow/models.py lines
59-66) for one batch row: raw scores `x` are multiplied entrywise by the 0/1
legal-action indicator `actions_tensor`, and then every entry of the product
that equals 0 is replaced by the sentinel `-1000`. -/
noncomputable def legalFilter {n : ℕ} (x : Fin n → ℝ) (legal : Finset (Fin n))
    (a : Fin n) : ℝ :=
  if x a * (if a ∈ legal then (1:ℝ) else 0) = 0 then -1000
  else x a * (if a ∈ legal then (1:ℝ) else 0)

/-- The probability `F.softmax(filtered_actions, dim=1)` assigns to action
`a` in `LegalSoftmax.forward` (src/rainbow/models.py line 67). -/
noncomputable def legalSoftmaxProb {n : ℕ} (x : Fin n → ℝ)
    (legal : Finset (Fin n)) (a : Fin n) : ℝ :=
  Real.exp (legalFilter x legal a) / ∑ b, Real.exp (legalFilter x legal b)

/-- C5: for any row of raw scores, any action excluded by the legal-move mask
gets post-mask score exactly `-1000` regardless of its raw score, and the
probability the masked softmax assigns to it is bounded by the two-entry
softmax of the `-1000` sentinel against the post-mask score of any legal
action. -/
theorem C5_illegal_prob_bound {n : ℕ} (x : Fin n → ℝ) (legal : Finset (Fin n))
    (a j : Fin n) (ha : a ∉ legal) (hj : j ∈ legal) :
    legalFilter x legal a = -1000 ∧
    legalSoftmaxProb x legal a ≤
      Real.exp (-1000) / (Real.exp (-1000) + Real.exp (legalFilter x legal j)) := by
  have hfa : legalFilter x legal a = -1000 := by
    simp [legalFilter, ha]
  refine ⟨hfa, ?_⟩
  have hne : j ≠ a := fun h => ha (h ▸ hj)
  have hsum : Real.exp (-1000) + Real.exp (legalFilter x legal j)
      ≤ ∑ b, Real.exp (legalFilter x legal b) := by
    have hmem : j ∈ Finset.univ.erase a :=
      Finset.mem_erase.mpr ⟨hne, Finset.mem_univ j⟩
    have h1 : Real.exp (legalFilter x legal j)
        ≤ ∑ b ∈ Finset.univ.erase a, Real.exp (legalFilter x legal b) :=
      Finset.single_le_sum (fun b _ => (Real.exp_pos _).le) hmem
    have h2 : Real.exp (legalFilter x legal a)
        + ∑ b ∈ Finset.univ.erase a, Real.exp (legalFilter x legal b)
        = ∑ b, Real.exp (legalFilter x legal b) :=
      Finset.add_sum_erase Finset.univ
        (fun b => Real.exp (legalFilter x legal b)) (Finset.mem_univ a)
    rw [hfa] at h2
    linarith
  have hdpos : (0:ℝ) < Real.exp (-1000) + Real.exp (legalFilter x legal j) := by
    have := Real.exp_pos (-1000:ℝ)
    have := Real.exp_pos (legalFilter x legal j)
    linarith
  unfold legalSoftmaxProb
  rw [hfa]
  exact div_le_div_of_nonneg_left (Real.exp_pos _).le hdpos hsum

/-- Witness for C5: two actions with raw scores `(5, 7)`, action 1 illegal,
action 0 legal. -/
theorem C5_illegal_prob_bound_witness :
    (1 : Fin 2) ∉ ({0} : Finset (Fin 2)) ∧ (0 : Fin 2) ∈ ({0} : Finset (Fin 2)) ∧
    (legalFilter ![5, 7] {0} 1 = -1000 ∧
     legalSoftmaxProb ![5, 7] {0} 1 ≤
       Real.exp (-1000) / (Real.exp (-1000) + Real.exp (legalFilter ![5, 7] {0} 0))) :=
  ⟨by decide, by decide,
    C5_illegal_prob_bound ![5, 7] {0} 1 0 (by decide) (by decide)⟩

/-- C10: a LEGAL action whose raw score is exactly 0 is also sent to the
`-1000` sentinel by `LegalSoftmax.forward`, because the masking multiplies by
a 0/1 indicator and then replaces every zero entry of the product with the
sentinel; such an action therefore receives exactly the same probability as
an illegal action of the same row. -/
theorem C10_zero_score_sentinel {n : ℕ} (x : Fin n → ℝ) (legal : Finset (Fin n))
    (a b : Fin n) (ha : a ∈ legal) (hxa : x a = 0) (hb : b ∉ legal) :
    legalFilter x legal a = -1000 ∧
    legalSoftmaxProb x legal a = legalSoftmaxProb x legal b := by
  have hfa : legalFilter x legal a = -1000 := by
    simp [legalFilter, ha, hxa]
  have hfb : legalFilter x legal b = -1000 := by
    simp [legalFilter, hb]
  refine ⟨hfa, ?_⟩
  unfold legalSoftmaxProb
  rw [hfa, hfb]

/-- Witness for C10: raw scores `(0, 3)`, action 0 legal with raw score 0,
action 1 illegal. -/
theorem C10_zero_score_sentinel_witness :
    (0 : Fin 2) ∈ ({0} : Finset (Fin 2)) ∧ (![0, 3] : Fin 2 → ℝ) 0 = 0 ∧
    (1 : Fin 2) ∉ ({0} : Finset (Fin 2)) ∧
    (legalFilter ![0, 3] {0} 0 = -1000 ∧
     legalSoftmaxProb ![0, 3] {0} 0 = legalSoftmaxProb ![0, 3] {0} 1) :=
  ⟨by decide, by norm_num, by decide,
    C10_zero_score_sentinel ![0, 3] {0} 0 1 (by decide) (by norm_num) (by decide)⟩

/-- The sign-preserving square-root transform
`x.sign().mul(x.abs().sqrt())` applied by `NoisyLayer.factorize_noise`
(src/rainbow/models.py line 140). -/
noncomputable def signSqrt (x : ℝ) : ℝ :=
  Real.sign x * Real.sqrt |x|

/-- `NoisyLayer.factorize_noise(size)` (src/rainbow/models.py lines
137-140): consumes `size` fresh Gaussian samples from the random stream `g`
(each call to `np.random.normal` advances the stream; `start` is the stream
position at call time) and applies the sign-preserving square-root transform
to each. -/
noncomputable def factorizeNoise (g : ℕ → ℝ) (start size : ℕ) (i : Fin size) : ℝ :=
  signSqrt (g (start + i))

/-- `NoisyLayer.update_noise` (src/rainbow/models.py lines 133-135):
`eps_w = factorize_noise(out_dim).ger(factorize_noise(in_dim))` and
`eps_b = factorize_noise(out_dim)`.  The three `factorize_noise` calls
consume, in order, an `out_dim`-sized block, an `in_dim`-sized block (outer
product of the two gives `eps_w`), and then a THIRD `out_dim`-sized block of
the random stream, which becomes `eps_b`. -/
noncomputable def updateNoise (g : ℕ → ℝ) (inDim outDim : ℕ) :
    (Fin outDim → Fin inDim → ℝ) × (Fin outDim → ℝ) :=
  (fun i j => factorizeNoise g 0 outDim i * factorizeNoise g outDim inDim j,
   fun i => factorizeNoise g (outDim + inDim) outDim i)

/-- C6 counterexample: the claim says the bias-noise vector is the SAME
transformed output-sized factor used in the outer product, not a separate
additional draw.  With `in_dim = out_dim = 1` and a stream whose third
sample (position 2) is `4` while the first sample is `1`, the bias noise is
`signSqrt 4 = 2`, different from the weight factor `signSqrt 1 = 1`: the
bias comes from a fresh draw. -/
theorem C6_bias_noise_fresh_draw :
    (updateNoise (fun k => if k = 2 then 4 else 1) 1 1).2 0
      ≠ factorizeNoise (fun k => if k = 2 then 4 else 1) 0 1 0 := by
  have h4 : signSqrt (4:ℝ) = 2 := by
    unfold signSqrt
    rw [Real.sign_of_pos (by norm_num), abs_of_pos (by norm_num)]
    rw [show (4:ℝ) = 2^2 by norm_num, Real.sqrt_sq (by norm_num : (0:ℝ) ≤ 2)]
    norm_num
  have h1 : signSqrt (1:ℝ) = 1 := by
    unfold signSqrt
    rw [Real.sign_of_pos (by norm_num), abs_of_pos (by norm_num), Real.sqrt_one]
    norm_num
  have hb : (updateNoise (fun k => if k = 2 then 4 else 1) 1 1).2 0
      = signSqrt (4:ℝ) := by
    show signSqrt (if (1 + 1 + ((0 : Fin 1) : ℕ) : ℕ) = 2 then (4:ℝ) else 1)
      = signSqrt (4:ℝ)
    norm_num
  have hw : factorizeNoise (fun k => if k = 2 then 4 else 1) 0 1 0
      = signSqrt (1:ℝ) := by
    show signSqrt (if (0 + ((0 : Fin 1) : ℕ) : ℕ) = 2 then (4:ℝ) else 1)
      = signSqrt (1:ℝ)
    norm_num
  rw [hb, hw, h4, h1]
  norm_num

/-- C6 amended: each call to `update_noise` consumes three independent
zero-mean Gaussian draws, not two: an output-sized factor and an input-sized
factor whose sign-square-root transforms form the weight-noise outer product,
and then a separate additional output-sized draw whose transform becomes the
bias-noise vector; the bias noise depends only on that third block of the
random stream. -/
theorem C6_noise_structure (g : ℕ → ℝ) (inDim outDim : ℕ) :
    (∀ (i : Fin outDim) (j : Fin inDim),
      (updateNoise g inDim outDim).1 i j
        = signSqrt (g (0 + (i : ℕ))) * signSqrt (g (outDim + (j : ℕ)))) ∧
    (∀ i : Fin outDim,
      (updateNoise g inDim outDim).2 i
        = signSqrt (g (outDim + inDim + (i : ℕ)))) ∧
    (∀ g' : ℕ → ℝ, (∀ k, outDim + inDim ≤ k → g k = g' k) →
      (updateNoise g inDim outDim).2 = (updateNoise g' inDim outDim).2) := by
  refine ⟨fun i j => rfl, fun i => rfl, fun g' hagree => ?_⟩
  funext i
  show signSqrt (g (outDim + inDim + (i : ℕ)))
    = signSqrt (g' (outDim + inDim + (i : ℕ)))
  rw [hagree _ (Nat.le_add_right _ _)]

/-- Witness for C6 amended at `in_dim = out_dim = 1` and the constant-1
stream. -/
theorem C6_noise_structure_witness :
    (∀ (i : Fin 1) (j : Fin 1),
      (updateNoise (fun _ => (1:ℝ)) 1 1).1 i j
        = signSqrt ((fun _ => (1:ℝ)) (0 + (i : ℕ)))
          * signSqrt ((fun _ => (1:ℝ)) (1 + (j : ℕ)))) ∧
    (∀ i : Fin 1,
      (updateNoise (fun _ => (1:ℝ)) 1 1).2 i
        = signSqrt ((fun _ => (1:ℝ)) (1 + 1 + (i : ℕ)))) ∧
    (∀ g' : ℕ → ℝ, (∀ k, 1 + 1 ≤ k → (fun _ => (1:ℝ)) k = g' k) →
      (updateNoise (fun _ => (1:ℝ)) 1 1).2 = (updateNoise g' 1 1).2) :=
  C6_noise_structure (fun _ => (1:ℝ)) 1 1
